import Mathlib

/-!
Verification of the OpenCoreRevival news pipeline core:
the normalizer/deduplicator (`clean_news.py`) and the chunked sentiment
aggregator (`analisisSentimiento.py`), embedded shallowly.
Text is modelled as `List Char` on the sentiment side (Python `str.split`,
`str.strip` are re-implemented faithfully) and as `String` on the
normalizer side; classifier confidence scores are rationals.
-/

namespace OpenCore

/-! ### Python string primitives used by the chunker -/

/-- Python whitespace characters recognised by `str.strip()` (ASCII range). -/
def isPySpace (c : Char) : Bool :=
  c = ' ' || c = '\t' || c = '\n' || c = '\x0d' || c = '\x0b' || c = '\x0c'

/-- Accumulator-passing worker for `str.split(sep)` with a one-character
separator: empty pieces are kept, the separator is discarded. -/
def pySplitAux (c : Char) : List Char → List Char → List (List Char)
  | [], cur => [cur]
  | x :: xs, cur =>
    if x = c then cur :: pySplitAux c xs []
    else pySplitAux c xs (cur ++ [x])

/-- Python `s.split(c)` for a single-character separator. -/
def pySplit (c : Char) (s : List Char) : List (List Char) :=
  pySplitAux c s []

/-- Python `s.strip()`: drop leading and trailing whitespace. -/
def pyStrip (s : List Char) : List Char :=
  ((s.dropWhile isPySpace).reverse.dropWhile isPySpace).reverse

/-! ### Chunker (`analizar_sentimientos_transformers`, lines 39-67)

The source interleaves chunk construction with classification, but the
chunk boundaries do not depend on the classifier, so chunking is embedded
as a pure function from the body text to the ordered list of chunk strings
handed to the classifier. -/

/-- The sentence-packing loop: walk the pieces of `texto.split('.')`,
skip pieces that are empty after stripping, greedily extend the current
chunk while `len(current_chunk) + len(sentence) < 500`, otherwise emit the
current chunk (if non-empty) and restart from the offending sentence; the
final non-empty chunk is emitted at the end. -/
def buildChunks : List (List Char) → List Char → List (List Char)
  | [], cur => if cur = [] then [] else [cur]
  | s :: rest, cur =>
    if pyStrip s = [] then buildChunks rest cur
    else if cur.length + s.length < 500 then buildChunks rest (cur ++ s ++ ['.'])
    else (if cur = [] then [] else [cur]) ++ buildChunks rest (s ++ ['.'])

/-- The ordered list of chunk strings the source submits to the
classification capability for a given body text. -/
def chunks (texto : List Char) : List (List Char) :=
  buildChunks (pySplit '.' texto) []

/-! ### Classification and accumulation (lines 32-67) -/

/-- The three canonical polarity labels returned by the classifier. -/
inductive Label
  | positive
  | negative
  | neutral
  deriving DecidableEq, Repr

/-- The `sentiment_scores` accumulator: one running confidence sum per
canonical label. -/
structure Scores where
  positive : ℚ
  negative : ℚ
  neutral : ℚ
  deriving DecidableEq, Repr

/-- `sentiment_scores[result['label']] += result['score']`. -/
def addScore (s : Scores) (l : Label) (v : ℚ) : Scores :=
  match l with
  | .positive => { s with positive := s.positive + v }
  | .negative => { s with negative := s.negative + v }
  | .neutral => { s with neutral := s.neutral + v }

/-- A classification capability: `none` models the classifier raising an
exception on that chunk (caught and skipped by the source). -/
abbrev Classifier := List Char → Option (Label × ℚ)

/-- Fold the chunk list through the classifier: a successful chunk adds its
score to its label's sum and increments `chunk_count`; a failing chunk
leaves the state untouched. -/
def classifyChunks (cls : Classifier) (chs : List (List Char)) : Scores × Nat :=
  chs.foldl
    (fun acc ch =>
      match cls ch with
      | some r => (addScore acc.1 r.1 r.2, acc.2 + 1)
      | none => acc)
    (⟨0, 0, 0⟩, 0)

/-- `max(sentiment_scores.items(), key=lambda x: x[1])`: a single scan in
dict insertion order `positive, negative, neutral`, replacing the current
best only on a strictly greater value. -/
def maxItem (s : Scores) : Label × ℚ :=
  let m1 : Label × ℚ :=
    if s.negative > s.positive then (.negative, s.negative) else (.positive, s.positive)
  if s.neutral > m1.2 then (.neutral, s.neutral) else m1

/-- The final `elif` ladder mapping the winning label to a Spanish label. -/
def labelToSpanish : Label → String
  | .positive => "Positivo"
  | .negative => "Negativo"
  | .neutral => "Neutro"

/-- `analizar_sentimientos_transformers`: chunk the text, accumulate
per-label confidence over successfully classified chunks, return
`"Neutro"` when no chunk was classified, otherwise average, pick the
maximal label, apply the 0.4 confidence floor and map to Spanish. -/
def analizar_sentimientos_transformers (texto : List Char) (cls : Classifier) : String :=
  let r := classifyChunks cls (chunks texto)
  if r.2 = 0 then "Neutro"
  else
    let avg : Scores := ⟨r.1.positive / r.2, r.1.negative / r.2, r.1.neutral / r.2⟩
    let m := maxItem avg
    if m.2 < (0.4 : ℚ) then "Neutro"
    else labelToSpanish m.1

/-! ### Spec-side definitions for the aggregator

These restate the reduction in the spec's vocabulary (averages as
sum/count, winner as the first label in canonical order attaining the
maximal average); the claims compare them with the embedded code. -/

/-- Averages: each label's accumulated sum divided by the classified-chunk
count. -/
def avgScores (s : Scores) (n : Nat) : Scores :=
  ⟨s.positive / n, s.negative / n, s.neutral / n⟩

/-- A label's entry in the accumulator. -/
def avgOf (s : Scores) : Label → ℚ
  | .positive => s.positive
  | .negative => s.negative
  | .neutral => s.neutral

/-- The maximal value over the three labels. -/
def maxAvg (s : Scores) : ℚ :=
  max (max s.positive s.negative) s.neutral

/-- The first label in the canonical order `positive, negative, neutral`
whose value attains the maximum. -/
def firstArgmax (s : Scores) : Label :=
  if s.positive = maxAvg s then .positive
  else if s.negative = maxAvg s then .negative
  else .neutral

/-- Spec-side reduction for a run with `n` successfully classified chunks:
average, select the first maximal label in canonical order, apply the
confidence floor, map to Spanish. -/
def specResult (s : Scores) (n : Nat) : String :=
  let a := avgScores s n
  if maxAvg a < (0.4 : ℚ) then "Neutro" else labelToSpanish (firstArgmax a)

/-- Spec-side accumulation over the successful classification outcomes
only: sums per label plus the count of successes. -/
def accumulateResults (rs : List (Label × ℚ)) : Scores × Nat :=
  rs.foldl (fun acc r => (addScore acc.1 r.1 r.2, acc.2 + 1)) (⟨0, 0, 0⟩, 0)

/-- Concatenation of sentences, each re-terminated with `'.'`. -/
def joinDot (ss : List (List Char)) : List Char :=
  (ss.map (fun s => s ++ ['.'])).flatten

/-! ### Normalizer/deduplicator (`clean_news_data`, src/openCore/clean_news.py)

A record is a Python dict; each required key either is absent, holds a
string, or holds a non-string value (whose truthiness is all the filter
ever asks of it). The external `ftfy.fix_text` is a parameter `f`. -/

/-- A value stored under a key of a scraped-article dict. -/
inductive Field
  | absent
  | str (s : String)
  | nonstr (truthy : Bool)
  deriving DecidableEq, Repr

/-- An article record; `extra` stands for the fields the normalizer never
reads or writes (`date`, `website`, ...). -/
structure Item where
  title : Field
  content : Field
  link : Field
  image_url : Field
  extra : String
  deriving DecidableEq, Repr

/-- Python `s.strip()` on a `String`. -/
def pyStripS (s : String) : String := String.mk (pyStrip s.data)

/-- Python `s.lower()` (ASCII case folding). -/
def pyLower (s : String) : String := String.mk (s.data.map Char.toLower)

/-- `item[key] = ftfy.fix_text(item[key]).strip()`, applied only when the
key is present and holds a string. -/
def repairField (f : String → String) : Field → Field
  | .str s => .str (pyStripS (f s))
  | v => v

/-- The encoding-repair pass over `title`, `content` and `link`
(`image_url` is not repaired). -/
def repairItem (f : String → String) (it : Item) : Item :=
  { it with
    title := repairField f it.title
    content := repairField f it.content
    link := repairField f it.link }

/-- `key in item and item[key] and isinstance(item[key], str)`: present,
truthy and a string — for a string, truthy means non-empty. -/
def fieldOk : Field → Bool
  | .str s => s != ""
  | _ => false

/-- The required-fields check over `image_url`, `title`, `content`, `link`. -/
def itemOk (it : Item) : Bool :=
  fieldOk it.image_url && fieldOk it.title && fieldOk it.content && fieldOk it.link

/-- `value.strip().lower()`: the normalized comparison key. -/
def normKey (s : String) : String := pyLower (pyStripS s)

/-- The string held by a field (the dedup loop only reads fields the
filter has already proved to be strings). -/
def strOf : Field → String
  | .str s => s
  | _ => ""

/-- Normalized title key of a record. -/
def titleKey (it : Item) : String := normKey (strOf it.title)

/-- Normalized link key of a record. -/
def linkKey (it : Item) : String := normKey (strOf it.link)

/-- The duplicate-removal loop: keep an item only when neither its
normalized title nor its normalized link is in the corresponding seen-set,
and only then add both keys to the seen-sets. -/
def dedup (seenT seenL : List String) : List Item → List Item
  | [] => []
  | it :: rest =>
    if titleKey it ∈ seenT ∨ linkKey it ∈ seenL then dedup seenT seenL rest
    else it :: dedup (titleKey it :: seenT) (linkKey it :: seenL) rest

/-- `clean_news_data` on an already-parsed record list: repair encodings,
filter records with all required fields, remove duplicates (file IO and
the printed summary are outside the core). -/
def clean_news_data (f : String → String) (data : List Item) : List Item :=
  dedup [] [] ((data.map (repairItem f)).filter itemOk)

/-! ### Spec-side definitions for the deduplicator -/

/-- Does `it` share a normalized key with some record of `kept`? -/
def clashes (kept : List Item) (it : Item) : Bool :=
  kept.any (fun j => titleKey j == titleKey it || linkKey j == linkKey it)

/-- Spec-side dedup: walking in input order, keep a record iff neither its
normalized title nor its normalized link equals the corresponding key of
any earlier kept record. -/
def dedupSpec (kept : List Item) : List Item → List Item
  | [] => []
  | it :: rest =>
    if clashes kept it then dedupSpec kept rest
    else it :: dedupSpec (kept ++ [it]) rest

/-- Well-formed chunk contents over a sentence pool `all`: a non-empty
list of pool sentences, each non-empty after stripping, each
re-terminated with `'.'`. -/
def goodChunk (all : List (List Char)) (ch : List Char) : Prop :=
  ∃ ss : List (List Char), ss ≠ [] ∧ (∀ s ∈ ss, s ∈ all ∧ pyStrip s ≠ []) ∧ ch = joinDot ss

/-! ### Concrete inputs used by counterexamples, boundary conjuncts and
witnesses -/

/-- A body of 499 `'a'`s followed by `'.'`: its single chunk has length
exactly 500 while its single sentence has length 499. -/
def t500 : List Char := List.replicate 499 'a' ++ ['.']

/-- A two-sentence-free tiny body whose only chunk is `"ab."`. -/
def demoText : List Char := ['a', 'b', '.']

/-- First chunk of `bigText3`. -/
def chunkA : List Char := List.replicate 300 'a' ++ ['.']

/-- Second chunk of `bigText3`. -/
def chunkB : List Char := List.replicate 300 'b' ++ ['.']

/-- Third chunk of `bigText3`. -/
def chunkC : List Char := List.replicate 300 'c' ++ ['.']

/-- A body with three 300-character sentences, chunked into exactly
`[chunkA, chunkB, chunkC]`. -/
def bigText3 : List Char :=
  List.replicate 300 'a' ++ ['.'] ++ (List.replicate 300 'b' ++ ['.']) ++
    List.replicate 300 'c'

/-- Classifier that labels the three chunks of `bigText3` with the three
distinct labels, all at score 1.5 (so all averages tie at 0.5). -/
def clsTriple : Classifier := fun ch =>
  if ch = chunkA then some (.positive, 1.5)
  else if ch = chunkB then some (.negative, 1.5)
  else some (.neutral, 1.5)

/-- Classifier that raises on the second chunk of `bigText3` and scores
the first 0.9 positive and the third 0.2 negative. -/
def clsFail : Classifier := fun ch =>
  if ch = chunkA then some (.positive, 0.9)
  else if ch = chunkB then none
  else some (.negative, 0.2)

/-- Classifier returning `positive` at score exactly 0.4 on every chunk. -/
def clsPos40 : Classifier := fun _ => some (.positive, 0.4)

/-- Classifier returning `positive` at score 0.39 on every chunk. -/
def clsPos39 : Classifier := fun _ => some (.positive, 0.39)

/-- Classifier that raises on every chunk. -/
def clsNone : Classifier := fun _ => none

/-- A whitespace-only body: every sentence of the split is empty after
stripping, so no chunk is ever formed. -/
def wsText : List Char := [' ', '.', ' ', '.']

/-- First record of the dedup example: title `"A"`, link `"http://x/1"`. -/
def itemA1 : Item := ⟨.str "A", .str "c1", .str "http://x/1", .str "i1", "e1"⟩

/-- Second record of the dedup example: title `"a"` (same normalized
title), different link `"http://x/2"`. -/
def itemA2 : Item := ⟨.str "a", .str "c2", .str "http://x/2", .str "i2", "e2"⟩

/-- Constant repair function used by the idempotence witness. -/
def constX : String → String := fun _ => "x"

/-! ### Helper lemmas: the chunker -/

/-- Packing-loop invariant for the chunk-size bound: if the current chunk
is within 500 characters or is an oversized re-terminated sentence of the
pool `all`, then so is every chunk the loop emits. -/
theorem buildChunks_bound (all : List (List Char)) :
    ∀ rest : List (List Char), (∀ s ∈ rest, s ∈ all) →
      ∀ cur : List Char,
        (cur.length ≤ 500 ∨ ∃ s ∈ all, cur = s ++ ['.'] ∧ 500 ≤ s.length) →
        ∀ ch ∈ buildChunks rest cur,
          ch.length ≤ 500 ∨ ∃ s ∈ all, ch = s ++ ['.'] ∧ 500 ≤ s.length := by
  intro rest
  induction rest with
  | nil =>
    intro _ cur hcur ch hch
    by_cases hc : cur = [] <;> simp [buildChunks, hc] at hch
    exact hch ▸ hcur
  | cons s rest ih =>
    intro hsub cur hcur ch hch
    have hsall : s ∈ all := hsub s (List.mem_cons_self _ _)
    have hsub' : ∀ t ∈ rest, t ∈ all := fun t ht => hsub t (List.mem_cons_of_mem _ ht)
    simp only [buildChunks] at hch
    by_cases hstrip : pyStrip s = []
    · rw [if_pos hstrip] at hch
      exact ih hsub' cur hcur ch hch
    · rw [if_neg hstrip] at hch
      by_cases hlen : cur.length + s.length < 500
      · rw [if_pos hlen] at hch
        refine ih hsub' _ ?_ ch hch
        left
        simp only [List.length_append, List.length_cons, List.length_nil]
        omega
      · rw [if_neg hlen] at hch
        rcases List.mem_append.mp hch with h1 | h2
        · by_cases hc : cur = []
          · simp [hc] at h1
          · rw [if_neg hc] at h1
            exact (List.mem_singleton.mp h1) ▸ hcur
        · refine ih hsub' _ ?_ ch h2
          by_cases hbig : s.length ≤ 499
          · left
            simp only [List.length_append, List.length_cons, List.length_nil]
            omega
          · exact Or.inr ⟨s, hsall, rfl, by omega⟩

/-- Packing-loop invariant for chunk contents: the current chunk is empty
or well formed, and every emitted chunk is well formed. -/
theorem buildChunks_good (all : List (List Char)) :
    ∀ rest : List (List Char), (∀ s ∈ rest, s ∈ all) →
      ∀ cur : List Char, (cur = [] ∨ goodChunk all cur) →
      ∀ ch ∈ buildChunks rest cur, goodChunk all ch := by
  intro rest
  induction rest with
  | nil =>
    intro _ cur hcur ch hch
    by_cases hc : cur = [] <;> simp [buildChunks, hc] at hch
    rcases hcur with rfl | hg
    · exact absurd rfl hc
    · exact hch ▸ hg
  | cons s rest ih =>
    intro hsub cur hcur ch hch
    have hsall : s ∈ all := hsub s (List.mem_cons_self _ _)
    have hsub' : ∀ t ∈ rest, t ∈ all := fun t ht => hsub t (List.mem_cons_of_mem _ ht)
    simp only [buildChunks] at hch
    by_cases hstrip : pyStrip s = []
    · rw [if_pos hstrip] at hch
      exact ih hsub' cur hcur ch hch
    · rw [if_neg hstrip] at hch
      by_cases hlen : cur.length + s.length < 500
      · rw [if_pos hlen] at hch
        refine ih hsub' _ (Or.inr ?_) ch hch
        rcases hcur with rfl | ⟨ss, hne, hall, rfl⟩
        · exact ⟨[s], by simp, by simp [hsall, hstrip], by simp [joinDot]⟩
        · refine ⟨ss ++ [s], by simp, ?_, ?_⟩
          · intro t ht
            rcases List.mem_append.mp ht with h | h
            · exact hall t h
            · have := List.mem_singleton.mp h
              subst this
              exact ⟨hsall, hstrip⟩
          · simp [joinDot, List.flatten_append, List.append_assoc]
      · rw [if_neg hlen] at hch
        rcases List.mem_append.mp hch with h1 | h2
        · by_cases hc : cur = []
          · simp [hc] at h1
          · rw [if_neg hc] at h1
            rcases hcur with rfl | hg
            · exact absurd rfl hc
            · exact (List.mem_singleton.mp h1) ▸ hg
        · exact ih hsub' _
            (Or.inr ⟨[s], by simp, by simp [hsall, hstrip], by simp [joinDot]⟩) ch h2

/-- A well-formed chunk ends in its terminator. -/
theorem joinDot_eq_append_dot :
    ∀ ss : List (List Char), ss ≠ [] → ∃ l, joinDot ss = l ++ ['.'] := by
  intro ss
  induction ss with
  | nil => intro h; exact absurd rfl h
  | cons s ss ih =>
    intro _
    by_cases hss : ss = []
    · subst hss
      exact ⟨s, by simp [joinDot]⟩
    · rcases ih hss with ⟨l, hl⟩
      refine ⟨s ++ ['.'] ++ l, ?_⟩
      have h1 : joinDot (s :: ss) = (s ++ ['.']) ++ joinDot ss := by simp [joinDot]
      rw [h1, hl]
      simp [List.append_assoc]

/-- Stripping a list ending in `'.'` cannot give the empty list. -/
theorem pyStrip_append_dot (l : List Char) : pyStrip (l ++ ['.']) ≠ [] := by
  have hdot : isPySpace '.' = false := by decide
  unfold pyStrip
  rw [List.dropWhile_append]
  by_cases he : (List.dropWhile isPySpace l).isEmpty
  · rw [if_pos he]
    simp [List.dropWhile_cons, hdot]
  · rw [if_neg he]
    rw [List.reverse_append]
    simp [List.dropWhile_cons, hdot]

/-- A well-formed chunk is non-empty after stripping. -/
theorem goodChunk_strip_ne (all : List (List Char)) (ch : List Char)
    (h : goodChunk all ch) : pyStrip ch ≠ [] := by
  rcases h with ⟨ss, hne, _, rfl⟩
  rcases joinDot_eq_append_dot ss hne with ⟨l, hl⟩
  rw [hl]
  exact pyStrip_append_dot l

/-! ### Claim C1 -/

set_option maxRecDepth 40000 in
/-- C1 (counterexample): the text `t500` (499 `'a'`s and a final `'.'`)
produces a chunk of length exactly 500 whose single sentence has length
only 499, refuting the claimed strict bound — under either reading of the
exception (sentence with or without its re-appended terminator). -/
theorem chunks_bound_counterexample :
    ¬ ∀ ch ∈ chunks t500, ch.length < 500 ∨
        ∃ s ∈ pySplit '.' t500, (ch = s ++ ['.'] ∨ ch = s) ∧ 500 < s.length := by
  intro h
  have hmem : (List.replicate 499 'a' ++ ['.']) ∈ chunks t500 := by
    have he : chunks t500 = [List.replicate 499 'a' ++ ['.']] := by decide
    rw [he]
    exact List.mem_singleton.mpr rfl
  rcases h _ hmem with hlt | ⟨s, _, heq, hlen⟩
  · simp only [List.length_append, List.length_replicate, List.length_cons,
      List.length_nil] at hlt
    omega
  · rcases heq with heq | heq <;>
      have hlg := congrArg List.length heq <;>
      simp only [List.length_append, List.length_replicate, List.length_cons,
        List.length_nil] at hlg <;>
      omega

/-- C1 (amended): every chunk the chunker emits has length at most 500,
except a chunk consisting of a single sentence of length ≥ 500 together
with its re-appended terminator. -/
theorem chunks_bound (texto : List Char) (ch : List Char) (h : ch ∈ chunks texto) :
    ch.length ≤ 500 ∨ ∃ s ∈ pySplit '.' texto, ch = s ++ ['.'] ∧ 500 ≤ s.length :=
  buildChunks_bound (pySplit '.' texto) (pySplit '.' texto) (fun _ ht => ht) []
    (Or.inl (by simp)) ch h

/-- C1 (witness): the bound instantiated on the two-character body `"a."`,
whose only chunk is `"a."`. -/
theorem chunks_bound_witness :
    ('a' :: '.' :: []) ∈ chunks ('a' :: '.' :: []) ∧
      (('a' :: '.' :: []).length ≤ 500 ∨
        ∃ s ∈ pySplit '.' ('a' :: '.' :: []),
          'a' :: '.' :: [] = s ++ ['.'] ∧ 500 ≤ s.length) :=
  ⟨by decide, chunks_bound ('a' :: '.' :: []) ('a' :: '.' :: []) (by decide)⟩

/-! ### Claim C10 -/

/-- C10: every chunk submitted to the classifier is a concatenation of one
or more sentences of the split, each non-empty after stripping and each
re-terminated with `'.'`; in particular no submitted chunk is empty after
stripping (the degenerate `"."` chunk never arises). -/
theorem chunks_submitted_nonempty (texto : List Char) (ch : List Char)
    (h : ch ∈ chunks texto) :
    pyStrip ch ≠ [] ∧
      ∃ ss : List (List Char), ss ≠ [] ∧
        (∀ s ∈ ss, s ∈ pySplit '.' texto ∧ pyStrip s ≠ []) ∧ ch = joinDot ss := by
  have hg : goodChunk (pySplit '.' texto) ch :=
    buildChunks_good (pySplit '.' texto) (pySplit '.' texto) (fun _ ht => ht) []
      (Or.inl rfl) ch h
  exact ⟨goodChunk_strip_ne _ _ hg, hg⟩

/-- C10 (witness): instantiated on the body `"b."`, whose only chunk is
`"b."`. -/
theorem chunks_submitted_nonempty_witness :
    pyStrip ('b' :: '.' :: []) ≠ [] ∧
      ∃ ss : List (List Char), ss ≠ [] ∧
        (∀ s ∈ ss, s ∈ pySplit '.' ('b' :: '.' :: []) ∧ pyStrip s ≠ []) ∧
        'b' :: '.' :: [] = joinDot ss :=
  chunks_submitted_nonempty ('b' :: '.' :: []) ('b' :: '.' :: []) (by decide)

/-! ### Helper lemmas: the aggregator -/

/-- The source's single max scan over `positive, negative, neutral` agrees
with the spec-side selection: it returns the first label in canonical
order attaining the maximal value, paired with that value. -/
theorem maxItem_eq (s : Scores) : maxItem s = (firstArgmax s, maxAvg s) := by
  by_cases hpn : s.positive < s.negative
  · by_cases hnu : s.negative < s.neutral
    · have e1 : maxItem s = (.neutral, s.neutral) := by
        simp [maxItem, hpn, hnu]
      have e2 : maxAvg s = s.neutral := by
        rw [maxAvg, max_eq_right hpn.le, max_eq_right hnu.le]
      have e3 : firstArgmax s = .neutral := by
        rw [firstArgmax, e2, if_neg (ne_of_lt (hpn.trans hnu)), if_neg (ne_of_lt hnu)]
      rw [e1, e2, e3]
    · have e1 : maxItem s = (.negative, s.negative) := by
        simp [maxItem, hpn, hnu]
      have e2 : maxAvg s = s.negative := by
        rw [maxAvg, max_eq_right hpn.le, max_eq_left (not_lt.mp hnu)]
      have e3 : firstArgmax s = .negative := by
        rw [firstArgmax, e2, if_neg (ne_of_lt hpn), if_pos rfl]
      rw [e1, e2, e3]
  · by_cases hpu : s.positive < s.neutral
    · have e1 : maxItem s = (.neutral, s.neutral) := by
        simp [maxItem, hpn, hpu]
      have e2 : maxAvg s = s.neutral := by
        rw [maxAvg, max_eq_left (not_lt.mp hpn), max_eq_right hpu.le]
      have e3 : firstArgmax s = .neutral := by
        rw [firstArgmax, e2, if_neg (ne_of_lt hpu),
          if_neg (ne_of_lt (lt_of_le_of_lt (not_lt.mp hpn) hpu))]
      rw [e1, e2, e3]
    · have e1 : maxItem s = (.positive, s.positive) := by
        simp [maxItem, hpn, hpu]
      have e2 : maxAvg s = s.positive := by
        rw [maxAvg, max_eq_left (not_lt.mp hpn), max_eq_left (not_lt.mp hpu)]
      have e3 : firstArgmax s = .positive := by
        rw [firstArgmax, e2, if_pos rfl]
      rw [e1, e2, e3]

/-- With at least one classified chunk, the embedded reduction agrees with
the spec-side reduction `specResult`. -/
theorem analizar_eq_specResult (texto : List Char) (cls : Classifier)
    (h : (classifyChunks cls (chunks texto)).2 ≠ 0) :
    analizar_sentimientos_transformers texto cls =
      specResult (classifyChunks cls (chunks texto)).1
        (classifyChunks cls (chunks texto)).2 := by
  simp only [analizar_sentimientos_transformers, specResult, avgScores]
  rw [if_neg h, maxItem_eq]

/-- Folding the chunk list through the failure-tolerant step is the same
as folding the successful outcomes only, from any starting state. -/
theorem classify_fold_aux (cls : Classifier) :
    ∀ (chs : List (List Char)) (init : Scores × Nat),
      List.foldl
          (fun acc ch =>
            match cls ch with
            | some r => (addScore acc.1 r.1 r.2, acc.2 + 1)
            | none => acc)
          init chs =
        List.foldl (fun acc r => (addScore acc.1 r.1 r.2, acc.2 + 1)) init
          (chs.filterMap cls) := by
  intro chs
  induction chs with
  | nil => intro init; rfl
  | cons ch chs ih =>
    intro init
    cases hc : cls ch <;>
      simp [List.filterMap_cons, hc, List.foldl_cons, ih]

/-- `classifyChunks` accumulates exactly the successful outcomes. -/
theorem classifyChunks_eq (cls : Classifier) (chs : List (List Char)) :
    classifyChunks cls chs = accumulateResults (chs.filterMap cls) := by
  unfold classifyChunks accumulateResults
  exact classify_fold_aux cls chs _

/-! ### Claim C2 -/

/-- C2: with at least one successfully classified chunk, each label's
average is its accumulated sum divided by the classified-chunk count and
the maximal average decides the outcome — mapped to Spanish when it is at
least 0.4, overridden to "Neutro" when strictly below 0.4 (the spec-side
`specResult`); moreover a run whose only chunk classifies positive at
score exactly 0.40 yields "Positivo", and at 0.39 yields "Neutro". -/
theorem aggregator_reduction (texto : List Char) (cls : Classifier)
    (h : (classifyChunks cls (chunks texto)).2 ≠ 0) :
    analizar_sentimientos_transformers texto cls =
        specResult (classifyChunks cls (chunks texto)).1
          (classifyChunks cls (chunks texto)).2 ∧
      analizar_sentimientos_transformers demoText clsPos40 = "Positivo" ∧
      analizar_sentimientos_transformers demoText clsPos39 = "Neutro" := by
  refine ⟨analizar_eq_specResult texto cls h, ?_, ?_⟩
  · have hc : chunks demoText = [['a', 'b', '.']] := by decide
    rw [analizar_sentimientos_transformers, hc]
    simp only [classifyChunks, List.foldl, clsPos40, addScore, maxItem, labelToSpanish]
    norm_num
  · have hc : chunks demoText = [['a', 'b', '.']] := by decide
    rw [analizar_sentimientos_transformers, hc]
    simp only [classifyChunks, List.foldl, clsPos39, addScore, maxItem, labelToSpanish]
    norm_num

/-- C2 (witness): the reduction instantiated on `demoText` with the
constant positive-0.4 classifier. -/
theorem aggregator_reduction_witness :
    (classifyChunks clsPos40 (chunks demoText)).2 ≠ 0 ∧
      analizar_sentimientos_transformers demoText clsPos40 =
        specResult (classifyChunks clsPos40 (chunks demoText)).1
          (classifyChunks clsPos40 (chunks demoText)).2 := by
  have h : (classifyChunks clsPos40 (chunks demoText)).2 ≠ 0 := by decide
  exact ⟨h, (aggregator_reduction demoText clsPos40 h).1⟩

/-! ### Claim C3 -/

set_option maxRecDepth 400000 in
/-- C3: a chunk on which the classifier raises contributes nothing to any
label's sum and does not increment the classified-chunk count, later
chunks are still processed, the error never escapes (the embedded
aggregation is total), and the final state is exactly the one computed
from the successful chunks alone; on the three-chunk body `bigText3` with
a failure on the second chunk the accumulator holds the contributions of
chunks 1 and 3 only, with count 2, and the final label follows from them
(averages 0.45/0.1/0, result "Positivo"). -/
theorem classifier_failure_skips (texto : List Char) (cls : Classifier) :
    classifyChunks cls (chunks texto) =
        accumulateResults ((chunks texto).filterMap cls) ∧
      classifyChunks clsFail (chunks bigText3) =
        (⟨0.9, 0.2, 0⟩, 2) ∧
      analizar_sentimientos_transformers bigText3 clsFail = "Positivo" := by
  have hc : chunks bigText3 = [chunkA, chunkB, chunkC] := by decide
  have hne1 : chunkB ≠ chunkA := by decide
  have hne2 : chunkC ≠ chunkA := by decide
  have hne3 : chunkC ≠ chunkB := by decide
  have hA : clsFail chunkA = some (.positive, 0.9) := by
    unfold clsFail; rw [if_pos rfl]
  have hB : clsFail chunkB = none := by
    unfold clsFail; rw [if_neg hne1, if_pos rfl]
  have hCc : clsFail chunkC = some (.negative, 0.2) := by
    unfold clsFail; rw [if_neg hne2, if_neg hne3]
  refine ⟨classifyChunks_eq cls (chunks texto), ?_, ?_⟩
  · rw [hc]
    simp only [classifyChunks, List.foldl, hA, hB, hCc, addScore]
    norm_num
  · rw [analizar_sentimientos_transformers, hc]
    simp only [classifyChunks, List.foldl, hA, hB, hCc, addScore, maxItem, labelToSpanish]
    norm_num

/-! ### Claim C4 -/

/-- C4: when zero chunks were successfully classified the result is
"Neutro" unconditionally; in particular, for every classifier, an empty
body and a whitespace-only body (every sentence empty after stripping)
yield "Neutro". -/
theorem zero_classified_neutro (texto : List Char) (cls : Classifier)
    (h : (classifyChunks cls (chunks texto)).2 = 0) :
    analizar_sentimientos_transformers texto cls = "Neutro" ∧
      (∀ c : Classifier, analizar_sentimientos_transformers [] c = "Neutro") ∧
      (∀ c : Classifier, analizar_sentimientos_transformers wsText c = "Neutro") := by
  refine ⟨?_, ?_, ?_⟩
  · simp only [analizar_sentimientos_transformers]
    rw [if_pos h]
  · intro c
    rfl
  · intro c
    have hc : chunks wsText = [] := by decide
    simp only [analizar_sentimientos_transformers, hc]
    rfl

/-- C4 (witness): the all-chunks-failed case on `demoText` with the
always-raising classifier. -/
theorem zero_classified_neutro_witness :
    (classifyChunks clsNone (chunks demoText)).2 = 0 ∧
      analizar_sentimientos_transformers demoText clsNone = "Neutro" := by
  have h : (classifyChunks clsNone (chunks demoText)).2 = 0 := by decide
  exact ⟨h, (zero_classified_neutro demoText clsNone h).1⟩

/-! ### Claim C6 -/

set_option maxRecDepth 400000 in
/-- C6: the max scan breaks ties by the canonical order positive,
negative, neutral — it always returns the first label in that order
attaining the maximal value — and with all three averages equal (0.5,
which is ≥ 0.4) on the three-chunk body `bigText3` the final result is
"Positivo". -/
theorem tie_break_canonical :
    (∀ s : Scores, maxItem s = (firstArgmax s, maxAvg s)) ∧
      analizar_sentimientos_transformers bigText3 clsTriple = "Positivo" := by
  refine ⟨maxItem_eq, ?_⟩
  have hc : chunks bigText3 = [chunkA, chunkB, chunkC] := by decide
  have hne1 : chunkB ≠ chunkA := by decide
  have hne2 : chunkC ≠ chunkA := by decide
  have hne3 : chunkC ≠ chunkB := by decide
  have hA : clsTriple chunkA = some (.positive, 1.5) := by
    unfold clsTriple; rw [if_pos rfl]
  have hB : clsTriple chunkB = some (.negative, 1.5) := by
    unfold clsTriple; rw [if_neg hne1, if_pos rfl]
  have hCc : clsTriple chunkC = some (.neutral, 1.5) := by
    unfold clsTriple; rw [if_neg hne2, if_neg hne3]
  rw [analizar_sentimientos_transformers, hc]
  simp only [classifyChunks, List.foldl, hA, hB, hCc, addScore, maxItem, labelToSpanish]
  norm_num

/-! ### Helper lemmas: the deduplicator -/

/-- Seen-set/kept-prefix correspondence: when each seen-set holds exactly
the keys of the records kept so far, the imperative loop agrees with the
spec-side earlier-kept formulation. -/
theorem dedup_eq_dedupSpec_aux :
    ∀ (l kept : List Item) (seenT seenL : List String),
      (∀ t : String, t ∈ seenT ↔ ∃ j ∈ kept, titleKey j = t) →
      (∀ t : String, t ∈ seenL ↔ ∃ j ∈ kept, linkKey j = t) →
      dedup seenT seenL l = dedupSpec kept l := by
  intro l
  induction l with
  | nil => intro kept seenT seenL _ _; rfl
  | cons it rest ih =>
    intro kept seenT seenL hT hL
    have hcond : (titleKey it ∈ seenT ∨ linkKey it ∈ seenL) ↔ clashes kept it = true := by
      rw [hT (titleKey it), hL (linkKey it)]
      simp only [clashes, List.any_eq_true, Bool.or_eq_true, beq_iff_eq]
      constructor
      · rintro (⟨j, hj, he⟩ | ⟨j, hj, he⟩)
        · exact ⟨j, hj, Or.inl he⟩
        · exact ⟨j, hj, Or.inr he⟩
      · rintro ⟨j, hj, he | he⟩
        · exact Or.inl ⟨j, hj, he⟩
        · exact Or.inr ⟨j, hj, he⟩
    simp only [dedup, dedupSpec]
    by_cases hcl : clashes kept it = true
    · rw [if_pos (hcond.mpr hcl), if_pos hcl]
      exact ih kept seenT seenL hT hL
    · rw [if_neg (fun hx => hcl (hcond.mp hx)), if_neg hcl]
      congr 1
      apply ih
      · intro t
        constructor
        · intro ht
          rcases List.mem_cons.mp ht with he | ht'
          · exact ⟨it, List.mem_append.mpr (Or.inr (List.mem_singleton.mpr rfl)), he.symm⟩
          · rcases (hT t).mp ht' with ⟨j, hj, he⟩
            exact ⟨j, List.mem_append.mpr (Or.inl hj), he⟩
        · rintro ⟨j, hj, he⟩
          rcases List.mem_append.mp hj with hj' | hj'
          · exact List.mem_cons.mpr (Or.inr ((hT t).mpr ⟨j, hj', he⟩))
          · have hje := List.mem_singleton.mp hj'
            subst hje
            exact List.mem_cons.mpr (Or.inl he.symm)
      · intro t
        constructor
        · intro ht
          rcases List.mem_cons.mp ht with he | ht'
          · exact ⟨it, List.mem_append.mpr (Or.inr (List.mem_singleton.mpr rfl)), he.symm⟩
          · rcases (hL t).mp ht' with ⟨j, hj, he⟩
            exact ⟨j, List.mem_append.mpr (Or.inl hj), he⟩
        · rintro ⟨j, hj, he⟩
          rcases List.mem_append.mp hj with hj' | hj'
          · exact List.mem_cons.mpr (Or.inr ((hL t).mpr ⟨j, hj', he⟩))
          · have hje := List.mem_singleton.mp hj'
            subst hje
            exact List.mem_cons.mpr (Or.inl he.symm)

/-- The dedup loop only ever removes records: its output is a sublist of
its input, in input order. -/
theorem dedup_sublist :
    ∀ (l : List Item) (seenT seenL : List String), (dedup seenT seenL l).Sublist l := by
  intro l
  induction l with
  | nil => intro _ _; exact List.Sublist.refl []
  | cons it rest ih =>
    intro seenT seenL
    simp only [dedup]
    by_cases hcl : titleKey it ∈ seenT ∨ linkKey it ∈ seenL
    · rw [if_pos hcl]
      exact (ih _ _).cons it
    · rw [if_neg hcl]
      exact (ih _ _).cons₂ it

/-- No record kept by the dedup loop carries a key that was already in a
seen-set when the loop started. -/
theorem dedup_mem_not_seen :
    ∀ (l : List Item) (seenT seenL : List String) (it : Item),
      it ∈ dedup seenT seenL l → titleKey it ∉ seenT ∧ linkKey it ∉ seenL := by
  intro l
  induction l with
  | nil => intro _ _ it h; simp [dedup] at h
  | cons x rest ih =>
    intro seenT seenL it h
    simp only [dedup] at h
    by_cases hcl : titleKey x ∈ seenT ∨ linkKey x ∈ seenL
    · rw [if_pos hcl] at h
      exact ih _ _ it h
    · rw [if_neg hcl] at h
      rcases List.mem_cons.mp h with he | h'
      · subst he
        exact ⟨fun hx => hcl (Or.inl hx), fun hx => hcl (Or.inr hx)⟩
      · have hni := ih _ _ it h'
        exact ⟨fun hx => hni.1 (List.mem_cons_of_mem _ hx),
               fun hx => hni.2 (List.mem_cons_of_mem _ hx)⟩

/-- The dedup output is pairwise distinct in normalized title and in
normalized link. -/
theorem dedup_pairwise :
    ∀ (l : List Item) (seenT seenL : List String),
      (dedup seenT seenL l).Pairwise
        (fun a b => titleKey a ≠ titleKey b ∧ linkKey a ≠ linkKey b) := by
  intro l
  induction l with
  | nil => intro _ _; simp [dedup]
  | cons x rest ih =>
    intro seenT seenL
    simp only [dedup]
    by_cases hcl : titleKey x ∈ seenT ∨ linkKey x ∈ seenL
    · rw [if_pos hcl]
      exact ih _ _
    · rw [if_neg hcl]
      refine List.pairwise_cons.mpr ⟨?_, ih _ _⟩
      intro b hb
      have hb' := dedup_mem_not_seen rest _ _ b hb
      constructor
      · intro he
        exact hb'.1 (by rw [← he]; exact List.mem_cons_self _ _)
      · intro he
        exact hb'.2 (by rw [← he]; exact List.mem_cons_self _ _)

/-- On a list already pairwise distinct in both keys, with no key in the
initial seen-sets, the dedup loop keeps everything. -/
theorem dedup_eq_self :
    ∀ (l : List Item) (seenT seenL : List String),
      l.Pairwise (fun a b => titleKey a ≠ titleKey b ∧ linkKey a ≠ linkKey b) →
      (∀ it ∈ l, titleKey it ∉ seenT ∧ linkKey it ∉ seenL) →
      dedup seenT seenL l = l := by
  intro l
  induction l with
  | nil => intro _ _ _ _; rfl
  | cons x rest ih =>
    intro seenT seenL hp hni
    have hx := hni x (List.mem_cons_self _ _)
    simp only [dedup]
    rw [if_neg (fun hor => hor.elim hx.1 hx.2)]
    congr 1
    rcases List.pairwise_cons.mp hp with ⟨hhead, htail⟩
    apply ih _ _ htail
    intro it hit
    have hne := hhead it hit
    have hni' := hni it (List.mem_cons_of_mem _ hit)
    constructor
    · intro hmem
      rcases List.mem_cons.mp hmem with he | he
      · exact hne.1 he.symm
      · exact hni'.1 he
    · intro hmem
      rcases List.mem_cons.mp hmem with he | he
      · exact hne.2 he.symm
      · exact hni'.2 he

/-- Mapping a function that fixes every member is the identity. -/
theorem map_id_of_forall_mem {α : Type} (f : α → α) :
    ∀ l : List α, (∀ x ∈ l, f x = x) → l.map f = l := by
  intro l
  induction l with
  | nil => intro _; rfl
  | cons x rest ih =>
    intro h
    simp only [List.map_cons]
    rw [h x (List.mem_cons_self _ _), ih (fun y hy => h y (List.mem_cons_of_mem _ hy))]

/-- Every output record of the normalizer comes from the repaired,
filtered intermediate list. -/
theorem clean_mem_filtered (f : String → String) (data : List Item) (it : Item)
    (h : it ∈ clean_news_data f data) :
    it ∈ (data.map (repairItem f)).filter itemOk :=
  (dedup_sublist _ [] []).subset h

/-- Every output record of the normalizer passes the required-fields
check. -/
theorem clean_mem_ok (f : String → String) (data : List Item) (it : Item)
    (h : it ∈ clean_news_data f data) : itemOk it = true :=
  List.of_mem_filter (clean_mem_filtered f data it h)

/-- Every output record of the normalizer is in the image of the repair
pass. -/
theorem clean_mem_repaired (f : String → String) (data : List Item) (it : Item)
    (h : it ∈ clean_news_data f data) : ∃ o : Item, it = repairItem f o := by
  have hm := (List.mem_filter.mp (clean_mem_filtered f data it h)).1
  rcases List.mem_map.mp hm with ⟨o, _, ho⟩
  exact ⟨o, ho.symm⟩

/-- Repairing a field twice is the same as repairing it once, provided
repair-then-strip is idempotent on strings. -/
theorem repairField_idem (f : String → String)
    (hf : ∀ s : String, pyStripS (f (pyStripS (f s))) = pyStripS (f s)) (v : Field) :
    repairField f (repairField f v) = repairField f v := by
  cases v with
  | str s => simp [repairField, hf s]
  | absent => rfl
  | nonstr b => rfl

/-- Repairing a record twice is the same as repairing it once. -/
theorem repairItem_idem (f : String → String)
    (hf : ∀ s : String, pyStripS (f (pyStripS (f s))) = pyStripS (f s)) (o : Item) :
    repairItem f (repairItem f o) = repairItem f o := by
  cases o with
  | mk t c l i e => simp [repairItem, repairField_idem f hf]

/-- A field passing the check is a non-empty string. -/
theorem fieldOk_shape (v : Field) (h : fieldOk v = true) :
    ∃ s : String, s ≠ "" ∧ v = .str s := by
  cases v with
  | str s => exact ⟨s, by simpa [fieldOk] using h, rfl⟩
  | absent => simp [fieldOk] at h
  | nonstr b => simp [fieldOk] at h

/-! ### Claim C5 -/

/-- C5: a record is kept by the dedup loop iff neither its normalized
title nor its normalized link equals the corresponding key of any earlier
kept record (the spec-side `dedupSpec`, whose seen keys are exactly those
of earlier kept records — dropped records contribute none); the output is
a sublist of the input, so relative order is preserved and the first
occurrence wins; and on the two-record example with titles `"A"`/`"a"`
and distinct links the second record is dropped. -/
theorem dedup_first_occurrence_wins (l : List Item) :
    dedup [] [] l = dedupSpec [] l ∧ (dedup [] [] l).Sublist l ∧
      clean_news_data id [itemA1, itemA2] = [itemA1] := by
  refine ⟨?_, dedup_sublist l [] [], by decide⟩
  apply dedup_eq_dedupSpec_aux
  · intro t
    simp
  · intro t
    simp

/-! ### Claim C7 -/

/-- C7: when text repair composed with stripping is idempotent, running
the normalizer on its own output changes nothing: no record is dropped
for missing fields and none is dropped as a duplicate on the second
run. -/
theorem clean_news_idempotent (f : String → String)
    (hf : ∀ s : String, pyStripS (f (pyStripS (f s))) = pyStripS (f s))
    (data : List Item) :
    clean_news_data f (clean_news_data f data) = clean_news_data f data := by
  have hmap : (clean_news_data f data).map (repairItem f) = clean_news_data f data := by
    apply map_id_of_forall_mem
    intro it hit
    rcases clean_mem_repaired f data it hit with ⟨o, rfl⟩
    exact repairItem_idem f hf o
  have hfil : (clean_news_data f data).filter itemOk = clean_news_data f data := by
    rw [List.filter_eq_self]
    intro a ha
    exact clean_mem_ok f data a ha
  have hded : dedup [] [] (clean_news_data f data) = clean_news_data f data := by
    apply dedup_eq_self _ _ _ (dedup_pairwise _ [] [])
    intro it _
    exact ⟨List.not_mem_nil _, List.not_mem_nil _⟩
  show dedup [] []
      (((clean_news_data f data).map (repairItem f)).filter itemOk) =
    clean_news_data f data
  rw [hmap, hfil, hded]

/-- C7 (witness): idempotence instantiated with the constant repair
function `constX` (for which repair-then-strip is trivially idempotent)
on a one-record input. -/
theorem clean_news_idempotent_witness :
    clean_news_data constX (clean_news_data constX [itemA1]) =
      clean_news_data constX [itemA1] :=
  clean_news_idempotent constX (fun _ => rfl) [itemA1]

/-! ### Claim C8 -/

/-- C8: dedup invariant — in the normalizer's output, any two distinct
records differ in normalized title and differ in normalized link. -/
theorem output_pairwise_distinct (f : String → String) (data : List Item) :
    (clean_news_data f data).Pairwise
      (fun a b => titleKey a ≠ titleKey b ∧ linkKey a ≠ linkKey b) :=
  dedup_pairwise _ [] []

/-! ### Claim C9 -/

/-- C9: every record in the normalizer's output has `title`, `content`,
`link` and `image_url` present, of string type and non-empty. -/
theorem output_required_fields (f : String → String) (data : List Item) (it : Item)
    (h : it ∈ clean_news_data f data) :
    (∃ s : String, s ≠ "" ∧ it.title = .str s) ∧
      (∃ s : String, s ≠ "" ∧ it.content = .str s) ∧
      (∃ s : String, s ≠ "" ∧ it.link = .str s) ∧
      (∃ s : String, s ≠ "" ∧ it.image_url = .str s) := by
  have hok := clean_mem_ok f data it h
  simp only [itemOk, Bool.and_eq_true] at hok
  exact ⟨fieldOk_shape _ hok.1.1.2, fieldOk_shape _ hok.1.2,
    fieldOk_shape _ hok.2, fieldOk_shape _ hok.1.1.1⟩

/-- C9 (witness): the required-fields invariant instantiated on the
one-record input `[itemA1]`, whose output is `[itemA1]`. -/
theorem output_required_fields_witness :
    itemA1 ∈ clean_news_data id [itemA1] ∧
      ((∃ s : String, s ≠ "" ∧ itemA1.title = .str s) ∧
        (∃ s : String, s ≠ "" ∧ itemA1.content = .str s) ∧
        (∃ s : String, s ≠ "" ∧ itemA1.link = .str s) ∧
        (∃ s : String, s ≠ "" ∧ itemA1.image_url = .str s)) :=
  ⟨by decide, output_required_fields id [itemA1] itemA1 (by decide)⟩

end OpenCore
